import Mathlib

/-!
Shallow embedding of the text-to-record parsing core of `src/dash.py`
(IPO-GMP-Dashboard).  Strings are modelled as `List Char`; every Python
string operation used by the source (`str.strip`, `str.split(sep)[0]`,
`str.replace`, `re.search`, `re.sub`, `re.findall`, `float(...)` and the
`:,.2f` format) is given an executable Lean counterpart that follows the
CPython semantics of the construct as used by the source.  Sets of
whitespace characters are modelled on their ASCII/Latin-1 parts; the
binary-double rounding of `float` formatting is idealised to exact
rational rounding (no claim below depends on digit-level rounding of
half-way cases).
-/

namespace IpoDash

/-- Whitespace for `str.strip()` / regex `\s` (ASCII/Latin-1 part). -/
def isPyWs (c : Char) : Bool :=
  c = ' ' || c = '\t' || c = '\n' || c = '\r' || c = '\x0b' || c = '\x0c' ||
  c = '\x1c' || c = '\x1d' || c = '\x1e' || c = '\x1f' || c = '\x85' || c = '\xa0'

/-- Whitespace stripped by `float(str)` (ASCII only). -/
def isAsciiWs (c : Char) : Bool :=
  c = ' ' || c = '\t' || c = '\n' || c = '\r' || c = '\x0b' || c = '\x0c'

/-- Right strip: drop trailing characters satisfying `ws`. -/
def pyRstrip (ws : Char → Bool) (l : List Char) : List Char :=
  (l.reverse.dropWhile ws).reverse

/-- Both-ends strip with an explicit whitespace predicate. -/
def pyStripWith (ws : Char → Bool) (l : List Char) : List Char :=
  pyRstrip ws (l.dropWhile ws)

/-- Python `str.strip()` (no argument). -/
def pyStrip (l : List Char) : List Char := pyStripWith isPyWs l

/-- Python `s.split(pat)[0]`: the part of `s` before the first occurrence of
`pat` (`pat` nonempty), or all of `s` if `pat` does not occur. -/
def splitHead (pat : List Char) : List Char → List Char
  | [] => []
  | c :: t => if pat.isPrefixOf (c :: t) then [] else c :: splitHead pat t

/-- Recursion core of `pyReplace`; the fuel argument only bounds the
recursion depth (one unit per input character suffices, since each step
consumes at least one character of a nonempty pattern or copies one). -/
def pyReplaceF (pat rep : List Char) : Nat → List Char → List Char
  | 0, l => l
  | _ + 1, [] => []
  | f + 1, c :: t =>
    if pat ≠ [] ∧ pat.isPrefixOf (c :: t) then
      rep ++ pyReplaceF pat rep f ((c :: t).drop pat.length)
    else
      c :: pyReplaceF pat rep f t

/-- Python `s.replace(pat, rep)`: replace all non-overlapping occurrences,
scanning left to right (`pat` nonempty, as at both call sites). -/
def pyReplace (pat rep : List Char) (l : List Char) : List Char :=
  pyReplaceF pat rep l.length l

/-- Python `re.sub(r'\s*TOK\s*$', '', s)` for a literal token `TOK`:
if the whitespace-right-stripped string ends with `TOK`, remove that final
`TOK` together with the whitespace around it; otherwise leave `s` unchanged. -/
def pySubTrailing (tok : List Char) (l : List Char) : List Char :=
  if tok.isSuffixOf (pyRstrip isPyWs l) then
    pyRstrip isPyWs ((pyRstrip isPyWs l).take ((pyRstrip isPyWs l).length - tok.length))
  else l

/-- `dash.py` line 91: GMP-table name extraction,
`ipo_text.split("IPO")[0].replace("BSE SME", "").replace("NSE SME", "").strip()`. -/
def gmpName (ipo_text : List Char) : List Char :=
  pyStrip (pyReplace ("NSE SME".toList) []
    (pyReplace ("BSE SME".toList) [] (splitHead ("IPO".toList) ipo_text)))

/-- `dash.py` lines 183-185 and 200: subscription-table name extraction,
`ipo_text.split("GMP")[0].strip()`, then `re.sub(r'\s*SME\s*$', '', ·)`,
then `re.sub(r'\s*IPO\s*$', '', ·)`, then the final `.strip()` at line 200. -/
def subName (ipo_text : List Char) : List Char :=
  pyStrip (pySubTrailing ("IPO".toList)
    (pySubTrailing ("SME".toList) (pyStrip (splitHead ("GMP".toList) ipo_text))))

/-! ### Leftmost regex search

`re.search` scans the starting positions of `s` from the left and returns
the first position where the pattern matches.  `searchM f` runs the
position-matcher `f` on every suffix of `s`, leftmost first. -/

def searchM {α : Type} (f : List Char → Option α) : List Char → Option α
  | [] => f []
  | c :: t =>
    match f (c :: t) with
    | some a => some a
    | none => searchM f t

/-- Matcher for `\d+\.?\d*x` at the current position (greedy, as the regex
engine resolves it: maximal digits, at most one dot, maximal digits, then a
literal `x`).  Returns the matched token and the rest of the input. -/
def matchNumX (l : List Char) : Option (List Char × List Char) :=
  if (l.takeWhile Char.isDigit).isEmpty then none else
  match l.dropWhile Char.isDigit with
  | '.' :: r2 =>
    (match r2.dropWhile Char.isDigit with
     | 'x' :: r4 =>
       some (l.takeWhile Char.isDigit ++ '.' :: (r2.takeWhile Char.isDigit ++ ['x']), r4)
     | _ => none)
  | 'x' :: r4 => some (l.takeWhile Char.isDigit ++ ['x'], r4)
  | _ => none

/-- Position matcher for `Sub:(\d+\.?\d*x)` (`dash.py` line 87): literal
`Sub:` then the captured group. -/
def trySub (l : List Char) : Option (List Char) :=
  if ("Sub:".toList).isPrefixOf l then
    match matchNumX (l.drop 4) with
    | some (tok, _) => some tok
    | none => none
  else none

/-- `dash.py` lines 87-88: `re.search(r'Sub:(\d+\.?\d*x)', status_text)`,
group 1 if matched, else the sentinel `"N.A."`. -/
def subTimes (status_text : List Char) : List Char :=
  match searchM trySub status_text with
  | some tok => tok
  | none => "N.A.".toList

/-- Output record of `parse_ipo_details` (`dash.py` lines 93-98). -/
structure IpoDetails where
  name : List Char
  type : List Char
  status : List Char
  subscription : List Char
deriving DecidableEq, Repr

/-- `dash.py` lines 69-98: `parse_ipo_details(ipo_text, status_text)`. -/
def parse_ipo_details (ipo_text status_text : List Char) : IpoDetails :=
  { name := gmpName ipo_text
    type := if ("SME".toList) <:+: ipo_text then "SME".toList else "Mainboard".toList
    status := pyStrip status_text
    subscription := subTimes status_text }

/-- Position matcher for `GMP:\$(\d+)\s*\(([^)]+)\)` (`dash.py` line 177):
literal `GMP:$`, group 1 = maximal nonempty digit run, optional whitespace,
`(`, group 2 = maximal nonempty run of non-`)` characters, `)`.
Returns (group 1, group 2, rest). -/
def tryGmp (l : List Char) : Option (List Char × List Char × List Char) :=
  if ("GMP:$".toList).isPrefixOf l then
    if ((l.drop 5).takeWhile Char.isDigit).isEmpty then none else
    match ((l.drop 5).dropWhile Char.isDigit).dropWhile isPyWs with
    | '(' :: r3 =>
      if (r3.takeWhile (fun c => !(c = ')'))).isEmpty then none else
      (match r3.dropWhile (fun c => !(c = ')')) with
       | ')' :: r5 =>
         some ((l.drop 5).takeWhile Char.isDigit, r3.takeWhile (fun c => !(c = ')')), r5)
       | _ => none)
    | _ => none
  else none

/-- Output record of `parse_subscription_ipo_name` (`dash.py` lines 199-205). -/
structure SubIpoDetails where
  name : List Char
  type : List Char
  gmp_value : List Char
  gmp_percentage : List Char
  status : List Char
deriving DecidableEq, Repr

/-- `dash.py` lines 188-197: the code-to-label table lookup
`status_mapping.get(status_code, status_code)`. -/
def status_mapping_get (code : List Char) : List Char :=
  if code = "O".toList then "Open".toList
  else if code = "C".toList then "Closed".toList
  else if code = "CT".toList then "Closing Today".toList
  else code

/-- `dash.py` lines 174-205: `parse_subscription_ipo_name(ipo_text, status_text)`. -/
def parse_subscription_ipo_name (ipo_text status_text : List Char) : SubIpoDetails :=
  { name := subName ipo_text
    type := if ("SME".toList) <:+: ipo_text then "SME".toList else "Mainboard".toList
    gmp_value :=
      match searchM tryGmp ipo_text with
      | some (v, _, _) => v
      | none => "N/A".toList
    gmp_percentage :=
      match searchM tryGmp ipo_text with
      | some (_, pc, _) => pc
      | none => "N/A".toList
    status := status_mapping_get (pyStrip status_text) }

/-! ### The two-numeric-substring extraction of `main` (lines 360-363) -/

/-- Recursion core of `findNums`; the fuel argument only bounds the
recursion depth (one unit per input character suffices, since every
recursive call is on a strictly shorter list). -/
def findNumsF : Nat → List Char → List (List Char)
  | 0, _ => []
  | _ + 1, [] => []
  | f + 1, c :: t =>
    if c.isDigit then
      match t.dropWhile Char.isDigit with
      | '.' :: r2 =>
        match r2.takeWhile Char.isDigit with
        | [] => (c :: t.takeWhile Char.isDigit) :: findNumsF f ('.' :: r2)
        | _ =>
          (c :: (t.takeWhile Char.isDigit ++ '.' :: r2.takeWhile Char.isDigit)) ::
            findNumsF f (r2.dropWhile Char.isDigit)
      | r1 => (c :: t.takeWhile Char.isDigit) :: findNumsF f r1
    else findNumsF f t

/-- `re.findall(r'\d+\.\d+|\d+', s)`: all non-overlapping matches, leftmost
first, the decimal alternative tried before the integer one. -/
def findNums (l : List Char) : List (List Char) :=
  findNumsF l.length l

/-- `dash.py` lines 360-363:
`matches = re.findall(r'\d+\.\d+|\d+', status)` and then the unconditional
indexing `f"{matches[0]}({matches[1]}%)"`.  `none` models the `IndexError`
raised when fewer than two numeric substrings are found. -/
def twoNumFormat (status : List Char) : Option (List Char) :=
  match findNums status with
  | a :: b :: _ => some (a ++ '(' :: (b ++ "%)".toList))
  | _ => none

/-! ### Bucketing in `main` (lines 275-326)

`processed_df[processed_df['status'].str.contains(kw)]` keeps, in input
order, exactly the records whose status contains `kw` as a substring. -/

/-- Upcoming section filter (`dash.py` line 277). -/
def bucketUpcoming (rs : List IpoDetails) : List IpoDetails :=
  rs.filter (fun r => decide (("Upcoming".toList) <:+: r.status))

/-- Open section filter (`dash.py` line 294). -/
def bucketOpen (rs : List IpoDetails) : List IpoDetails :=
  rs.filter (fun r => decide (("Open".toList) <:+: r.status))

/-- Closing-today section filter (`dash.py` line 312). -/
def bucketClosingToday (rs : List IpoDetails) : List IpoDetails :=
  rs.filter (fun r => decide (("Closing Today".toList) <:+: r.status))

/-! ### `format_price` (`dash.py` lines 8-13)

`format_price` tries `f"₹{float(price):,.2f}"` and returns the input
unchanged when `float(...)` raises.  `float(str)` is modelled by the
CPython grammar for float strings: optional ASCII whitespace, optional
sign, then `inf`/`infinity`/`nan` (case-insensitive) or a decimal literal
`digitpart ["." [digitpart]] | "." digitpart`, optionally followed by an
exponent `("e"|"E") [sign] digitpart`, where a `digitpart` is digits with
single underscores allowed between digits.  The numeric value is kept as
an exact rational (the detour through a binary double is idealised away;
no theorem below depends on a half-way rounding case). -/

/-- Consume a digit run with single underscores allowed between digits,
returning the digits (underscores dropped) and the rest.  The caller has
checked that the first character is a digit, so a leading underscore is
never accepted by `pyFloatParse`. -/
def grabDigits : List Char → List Char × List Char
  | [] => ([], [])
  | '_' :: d :: t =>
    if d.isDigit then
      let p := grabDigits t
      (d :: p.1, p.2)
    else ([], '_' :: d :: t)
  | c :: t =>
    if c.isDigit then
      let p := grabDigits t
      (c :: p.1, p.2)
    else ([], c :: t)

/-- Value of a most-significant-first digit list. -/
def digitsToNat (ds : List Char) : Nat :=
  ds.foldl (fun a c => 10 * a + (c.toNat - '0'.toNat)) 0

/-- Result of a successful `float(str)`.  A finite value is kept as its
exact decimal components `[-] ip . fs e exp`; the value denoted is
`± (ip + 0.fs) * 10 ^ exp`. -/
inductive PyFloat where
  | num (neg : Bool) (ip : Nat) (fs : List Char) (e : Int)
  | inf (neg : Bool)
  | nan
deriving DecidableEq, Repr

/-- Parse the optional exponent part and require the end of the string. -/
def parseExpPart (neg : Bool) (ip : Nat) (fs : List Char) (r : List Char) : Option PyFloat :=
  match r with
  | [] => some (.num neg ip fs 0)
  | e :: t =>
    if e = 'e' ∨ e = 'E' then
      let st := match t with
        | '+' :: u => (false, u)
        | '-' :: u => (true, u)
        | _ => (false, t)
      match st.2 with
      | d :: _ =>
        if d.isDigit then
          let p := grabDigits st.2
          if p.2 = [] then
            some (.num neg ip fs
              (if st.1 then -(digitsToNat p.1 : Int) else (digitsToNat p.1 : Int)))
          else none
        else none
      | [] => none
    else none

/-- CPython `float(str)`: `some` on the strings `float` accepts, `none` on
the strings where it raises `ValueError`. -/
def pyFloatParse (s : List Char) : Option PyFloat :=
  let l1 := pyStripWith isAsciiWs s
  let sg := match l1 with
    | '+' :: t => (false, t)
    | '-' :: t => (true, t)
    | _ => (false, l1)
  let neg := sg.1
  let l2 := sg.2
  let low := l2.map Char.toLower
  if low = "inf".toList ∨ low = "infinity".toList then some (.inf neg)
  else if low = "nan".toList then some PyFloat.nan
  else
    match l2 with
    | '.' :: t =>
      (match t with
       | d :: _ =>
         if d.isDigit then
           let p := grabDigits t
           parseExpPart neg 0 p.1 p.2
         else none
       | [] => none)
    | c :: t =>
      if c.isDigit then
        let p := grabDigits (c :: t)
        match p.2 with
        | '.' :: u =>
          (match u with
           | d :: _ =>
             if d.isDigit then
               let p2 := grabDigits u
               parseExpPart neg (digitsToNat p.1) p2.1 p2.2
             else parseExpPart neg (digitsToNat p.1) [] u
           | [] => parseExpPart neg (digitsToNat p.1) [] [])
        | _ => parseExpPart neg (digitsToNat p.1) [] p.2
      else none
    | [] => none

/-- Round `d / m` to the nearest integer, ties to even (the rounding of
`%.2f`), for `m > 0`. -/
def rheDiv (d m : Nat) : Nat :=
  let q := d / m
  let r := d % m
  if 2 * r < m then q
  else if m < 2 * r then q + 1
  else if q % 2 = 0 then q else q + 1

/-- Hundredths of the magnitude `(ip + 0.fs) * 10 ^ e`, rounded half-even:
the integer closest to `(ip.fs) * 10 ^ (e + 2)`. -/
def centsOf (ip : Nat) (fs : List Char) (e : Int) : Nat :=
  let d := ip * 10 ^ fs.length + digitsToNat fs
  let k : Int := e + 2 - (fs.length : Int)
  if 0 ≤ k then d * 10 ^ k.toNat else rheDiv d (10 ^ (-k).toNat)

/-- Split a least-significant-first digit list into groups of three. -/
def chunk3 : List Char → List (List Char)
  | [] => []
  | a :: b :: c :: t => [a, b, c] :: chunk3 t
  | l => [l]

/-- Comma thousands grouping of a most-significant-first digit list. -/
def group3 (ds : List Char) : List Char :=
  (List.intercalate [','] (chunk3 ds.reverse)).reverse

/-- Two-decimal digits of `n < 100`. -/
def twoDigits (n : Nat) : List Char :=
  [Char.ofNat ('0'.toNat + n / 10 % 10), Char.ofNat ('0'.toNat + n % 10)]

/-- The `:,.2f` format of a `float(str)` result. -/
def fmtPyFloat : PyFloat → List Char
  | .num neg ip fs e =>
    let cents := centsOf ip fs e
    (if neg then ['-'] else []) ++
      group3 (Nat.toDigits 10 (cents / 100)) ++ '.' :: twoDigits (cents % 100)
  | .inf neg => if neg then "-inf".toList else "inf".toList
  | .nan => "nan".toList

/-- `dash.py` lines 8-13: `format_price`. -/
def format_price (price : List Char) : List Char :=
  match pyFloatParse price with
  | some v => '₹' :: fmtPyFloat v
  | none => price

/-- Shape of the group `\d+\.?\d*` of the subscription regex: a nonempty
digit run, optionally followed by a dot and a (possibly empty) digit run. -/
def numShape (n : List Char) : Bool :=
  !(n.takeWhile Char.isDigit).isEmpty &&
    ((n.dropWhile Char.isDigit).isEmpty ||
      ((n.dropWhile Char.isDigit).head? = some '.' &&
        (n.dropWhile Char.isDigit).tail.all Char.isDigit))

/-- Number of the three bucketing keywords occurring in a status text
(used to state when the three section filters are disjoint). -/
def statusKeywordCount (st : List Char) : Nat :=
  (if ("Upcoming".toList) <:+: st then 1 else 0) +
  (if ("Open".toList) <:+: st then 1 else 0) +
  (if ("Closing Today".toList) <:+: st then 1 else 0)

/-! ### Generic facts about leftmost search -/

theorem searchM_of_here {α : Type} {f : List Char → Option α} {s : List Char} {a : α}
    (h : f s = some a) : searchM f s = some a := by
  cases s with
  | nil => simpa [searchM] using h
  | cons c t => simp [searchM, h]

theorem searchM_append {α : Type} {f : List Char → Option α} {p core : List Char} {a : α}
    (hp : ∀ t, t <:+ p → t ≠ [] → f (t ++ core) = none) (hc : f core = some a) :
    searchM f (p ++ core) = some a := by
  induction p with
  | nil => simpa using searchM_of_here hc
  | cons c p' ih =>
    have hfail : f (c :: (p' ++ core)) = none := by
      simpa using hp (c :: p') (List.suffix_refl _) (by simp)
    have ih' : searchM f (p' ++ core) = some a := by
      refine ih (fun t ht hne => hp t ?_ hne)
      exact ht.trans (List.suffix_cons c p')
    simp [searchM, hfail, ih']

theorem searchM_some_suffix {α : Type} {f : List Char → Option α} {s : List Char} {a : α}
    (h : searchM f s = some a) : ∃ t, t <:+ s ∧ f t = some a := by
  induction s with
  | nil => exact ⟨[], List.suffix_refl _, by simpa [searchM] using h⟩
  | cons c t ih =>
    rw [searchM] at h
    cases hf : f (c :: t) with
    | some b =>
      rw [hf] at h
      exact ⟨c :: t, List.suffix_refl _, by simpa [hf] using h⟩
    | none =>
      rw [hf] at h
      obtain ⟨u, hu, hfu⟩ := ih h
      exact ⟨u, hu.trans (List.suffix_cons c t), hfu⟩

/-! ### takeWhile / dropWhile across a boundary -/

theorem takeWhile_append_eq {p : Char → Bool} {d r : List Char}
    (hd : ∀ c ∈ d, p c = true) (hr : ∀ c ∈ r.head?, p c = false) :
    (d ++ r).takeWhile p = d := by
  rw [List.takeWhile_append_of_pos hd]
  cases r with
  | nil => simp
  | cons c t => simp [List.takeWhile_cons, hr c rfl]

theorem dropWhile_append_eq {p : Char → Bool} {d r : List Char}
    (hd : ∀ c ∈ d, p c = true) (hr : ∀ c ∈ r.head?, p c = false) :
    (d ++ r).dropWhile p = r := by
  rw [List.dropWhile_append_of_pos hd]
  cases r with
  | nil => simp
  | cons c t => simp [List.dropWhile_cons, hr c rfl]

/-! ### The `\d+\.?\d*x` matcher -/

theorem matchNumX_on {n q : List Char} (hn : numShape n = true) :
    matchNumX (n ++ 'x' :: q) = some (n ++ ['x'], q) := by
  have hsplit := List.takeWhile_append_dropWhile Char.isDigit n
  have hall : ∀ c ∈ n.takeWhile Char.isDigit, Char.isDigit c = true :=
    fun c hc => List.mem_takeWhile_imp hc
  unfold numShape at hn
  cases hdrop : n.dropWhile Char.isDigit with
  | nil =>
    rw [hdrop] at hn hsplit
    simp only [List.append_nil] at hsplit
    have hd : ∀ c ∈ n, Char.isDigit c = true := by rw [← hsplit]; exact hall
    have hne : n.takeWhile Char.isDigit ≠ [] := by
      simpa [List.isEmpty_eq_true] using hn
    have hnn : n ≠ [] := by
      intro h0; rw [h0] at hne; simp at hne
    have h1 : (n ++ 'x' :: q).takeWhile Char.isDigit = n :=
      takeWhile_append_eq hd (by intro c hc; simp at hc; subst hc; decide)
    have h2 : (n ++ 'x' :: q).dropWhile Char.isDigit = 'x' :: q :=
      dropWhile_append_eq hd (by intro c hc; simp at hc; subst hc; decide)
    unfold matchNumX
    simp [h1, h2, hnn]
  | cons c2 d2 =>
    rw [hdrop] at hn hsplit
    simp only [List.isEmpty_eq_true, List.head?_cons, List.tail_cons, Option.some.injEq,
      Bool.and_eq_true, Bool.or_eq_true, Bool.not_eq_true', decide_eq_true_eq,
      List.isEmpty_eq_false] at hn
    obtain ⟨hne, hrest⟩ := hn
    have hne' : n.takeWhile Char.isDigit ≠ [] := by
      simpa [List.isEmpty_eq_true] using hne
    rcases hrest with h0 | ⟨hdot, hd2⟩
    · exact absurd h0 (by simp)
    have hc2 : c2 = '.' := by simpa using hdot
    subst hc2
    have hd2' : ∀ c ∈ d2, Char.isDigit c = true := List.all_eq_true.mp hd2
    have hform : n = n.takeWhile Char.isDigit ++ '.' :: d2 := hsplit.symm
    have hx : n ++ 'x' :: q = n.takeWhile Char.isDigit ++ '.' :: (d2 ++ 'x' :: q) := by
      conv_lhs => rw [hform]
      simp
    have h1 : (n ++ 'x' :: q).takeWhile Char.isDigit = n.takeWhile Char.isDigit := by
      rw [hx]
      exact takeWhile_append_eq hall (by intro c hc; simp at hc; subst hc; decide)
    have h2 : (n ++ 'x' :: q).dropWhile Char.isDigit = '.' :: (d2 ++ 'x' :: q) := by
      rw [hx]
      exact dropWhile_append_eq hall (by intro c hc; simp at hc; subst hc; decide)
    have h3 : (d2 ++ 'x' :: q).takeWhile Char.isDigit = d2 :=
      takeWhile_append_eq hd2' (by intro c hc; simp at hc; subst hc; decide)
    have h4 : (d2 ++ 'x' :: q).dropWhile Char.isDigit = 'x' :: q :=
      dropWhile_append_eq hd2' (by intro c hc; simp at hc; subst hc; decide)
    unfold matchNumX
    simp only [h1, h2, h3, h4, List.isEmpty_eq_true]
    rw [if_neg hne']
    conv_rhs => rw [hform]
    simp


theorem takeWhile_of_all {p : Char → Bool} {d : List Char}
    (hd : ∀ c ∈ d, p c = true) : d.takeWhile p = d := by
  have := @takeWhile_append_eq p d [] hd (by simp)
  simpa using this

theorem dropWhile_of_all {p : Char → Bool} {d : List Char}
    (hd : ∀ c ∈ d, p c = true) : d.dropWhile p = [] := by
  have := @dropWhile_append_eq p d [] hd (by simp)
  simpa using this

theorem matchNumX_some {l m r : List Char} (h : matchNumX l = some (m, r)) :
    ∃ n, m = n ++ ['x'] ∧ numShape n = true ∧ l = m ++ r := by
  have hsplit := List.takeWhile_append_dropWhile Char.isDigit l
  have hall : ∀ c ∈ l.takeWhile Char.isDigit, Char.isDigit c = true :=
    fun c hc => List.mem_takeWhile_imp hc
  unfold matchNumX at h
  split at h
  · exact absurd h (by simp)
  next hne =>
    split at h
    next r2 heq =>
      split at h
      next r4 heq2 =>
        simp only [Option.some.injEq, Prod.mk.injEq] at h
        obtain ⟨hm, hr⟩ := h
        refine ⟨l.takeWhile Char.isDigit ++ '.' :: r2.takeWhile Char.isDigit, ?_, ?_, ?_⟩
        · rw [← hm]; simp
        · have h1 : (l.takeWhile Char.isDigit ++
              '.' :: r2.takeWhile Char.isDigit).takeWhile Char.isDigit
              = l.takeWhile Char.isDigit :=
            takeWhile_append_eq hall (by intro c hc; simp at hc; subst hc; decide)
          have h2 : (l.takeWhile Char.isDigit ++
              '.' :: r2.takeWhile Char.isDigit).dropWhile Char.isDigit
              = '.' :: r2.takeWhile Char.isDigit :=
            dropWhile_append_eq hall (by intro c hc; simp at hc; subst hc; decide)
          unfold numShape
          rw [h1, h2]
          simp only [List.head?_cons, List.tail_cons, List.all_eq_true]
          have hne' : ¬ (l.takeWhile Char.isDigit).isEmpty = true := hne
          simp only [List.isEmpty_eq_true] at hne'
          simp [List.isEmpty_eq_true, hne']
        · have hr2 : r2.takeWhile Char.isDigit ++ 'x' :: r4 = r2 := by
            conv_rhs => rw [← List.takeWhile_append_dropWhile Char.isDigit r2, heq2]
          rw [← hm, ← hr]
          conv_lhs => rw [← hsplit, heq, ← hr2]
          simp
      · exact absurd h (by simp)
    next r4 heq =>
      simp only [Option.some.injEq, Prod.mk.injEq] at h
      obtain ⟨hm, hr⟩ := h
      refine ⟨l.takeWhile Char.isDigit, hm.symm, ?_, ?_⟩
      · unfold numShape
        rw [takeWhile_of_all hall, dropWhile_of_all hall]
        simpa [List.isEmpty_eq_true] using hne
      · rw [← hm, ← hr]
        conv_lhs => rw [← hsplit, heq]
        simp
    next hne1 hne2 =>
      exact absurd h (by simp)

theorem trySub_core {n q : List Char} (hn : numShape n = true) :
    trySub ("Sub:".toList ++ (n ++ 'x' :: q)) = some (n ++ ['x']) := by
  have hpre : ("Sub:".toList).isPrefixOf ("Sub:".toList ++ (n ++ 'x' :: q)) = true :=
    List.isPrefixOf_iff_prefix.mpr (List.prefix_append _ _)
  have hdrop : (("Sub:".toList) ++ (n ++ 'x' :: q)).drop 4 = n ++ 'x' :: q := by
    simpa using List.drop_left ("Sub:".toList) (n ++ 'x' :: q)
  unfold trySub
  rw [hpre]
  simp only [if_true, hdrop, matchNumX_on hn]

theorem trySub_not_in_prefix {p t rest : List Char} (hp : ¬ ("Sub".toList <:+: p))
    (ht : t <:+ p) (ht0 : t ≠ []) (hrest : rest.head? = some 'S') :
    trySub (t ++ rest) = none := by
  have hnopre : ¬ (("Sub:".toList) <+: t ++ rest) := by
    intro hpre
    rcases t with _ | ⟨a, _ | ⟨b, _ | ⟨c, _ | ⟨d, t'⟩⟩⟩⟩
    · exact ht0 rfl
    · obtain ⟨u, hu⟩ := hpre
      have hu' : ('S' : Char) :: 'u' :: 'b' :: ':' :: u = a :: rest := hu
      simp only [List.cons.injEq] at hu'
      rw [← hu'.2] at hrest
      simp at hrest
    · obtain ⟨u, hu⟩ := hpre
      have hu' : ('S' : Char) :: 'u' :: 'b' :: ':' :: u = a :: b :: rest := hu
      simp only [List.cons.injEq] at hu'
      rw [← hu'.2.2] at hrest
      simp at hrest
    · obtain ⟨u, hu⟩ := hpre
      have hu' : ('S' : Char) :: 'u' :: 'b' :: ':' :: u = a :: b :: c :: rest := hu
      simp only [List.cons.injEq] at hu'
      rw [← hu'.2.2.2] at hrest
      simp at hrest
    · obtain ⟨u, hu⟩ := hpre
      have hu' : ('S' : Char) :: 'u' :: 'b' :: ':' :: u = a :: b :: c :: d :: (t' ++ rest) := hu
      simp only [List.cons.injEq] at hu'
      apply hp
      have hsub : ("Sub".toList) <+: a :: b :: c :: d :: t' := by
        rw [← hu'.1, ← hu'.2.1, ← hu'.2.2.1]
        exact ⟨d :: t', rfl⟩
      exact hsub.isInfix.trans ht.isInfix
  have hfalse : ("Sub:".toList).isPrefixOf (t ++ rest) = false := by
    rw [← Bool.not_eq_true]
    exact fun hx => hnopre (List.isPrefixOf_iff_prefix.mp hx)
  unfold trySub
  rw [hfalse]
  simp

theorem subTimes_found {p n q : List Char} (hn : numShape n = true)
    (hp : ¬ ("Sub".toList <:+: p)) :
    subTimes (p ++ ("Sub:".toList ++ (n ++ 'x' :: q))) = n ++ ['x'] := by
  unfold subTimes
  rw [@searchM_append (List Char) trySub p ("Sub:".toList ++ (n ++ 'x' :: q)) (n ++ ['x'])
    (fun t ht ht0 => trySub_not_in_prefix hp ht ht0 (by rfl)) (trySub_core hn)]

theorem subTimes_notfound {s : List Char}
    (h : ¬ ∃ p n q, numShape n = true ∧ s = p ++ ("Sub:".toList ++ (n ++ 'x' :: q))) :
    subTimes s = "N.A.".toList := by
  unfold subTimes
  cases hs : searchM trySub s with
  | none => rfl
  | some tok =>
    exfalso
    apply h
    obtain ⟨t, hts, hft⟩ := searchM_some_suffix hs
    unfold trySub at hft
    split at hft
    next hpre =>
      split at hft
      next tok' r hm =>
        obtain ⟨n, hn, hnum, hl⟩ := matchNumX_some hm
        obtain ⟨p, hp2⟩ := hts
        obtain ⟨u, hu⟩ := List.isPrefixOf_iff_prefix.mp hpre
        have hu2 : t.drop 4 = u := by
          rw [← hu]
          simpa using List.drop_left ("Sub:".toList) u
        have hu3 : u = (n ++ ['x']) ++ r := by rw [← hu2, hl, hn]
        refine ⟨p, n, r, hnum, ?_⟩
        rw [← hp2, ← hu, hu3]
        simp
      · exact absurd hft (by simp)
    · exact absurd hft (by simp)

/-! ### The `GMP:\$(\d+)\s*\(([^)]+)\)` search -/

theorem isPyWs_not_digit {c : Char} (h : isPyWs c = true) : Char.isDigit c = false := by
  simp only [isPyWs, Bool.or_eq_true, decide_eq_true_eq] at h
  rcases h with ((((((((((h | h) | h) | h) | h) | h) | h) | h) | h) | h) | h) | h <;>
    subst h <;> decide

theorem tryGmp_core {d w g q : List Char} (hd : d ≠ [])
    (hdall : ∀ c ∈ d, Char.isDigit c = true) (hw : ∀ c ∈ w, isPyWs c = true)
    (hg : g ≠ []) (hgall : ∀ c ∈ g, (!(c = ')')) = true) :
    tryGmp ("GMP:$".toList ++ (d ++ (w ++ '(' :: (g ++ ')' :: q)))) = some (d, g, q) := by
  have hpre : ("GMP:$".toList).isPrefixOf
      ("GMP:$".toList ++ (d ++ (w ++ '(' :: (g ++ ')' :: q)))) = true :=
    List.isPrefixOf_iff_prefix.mpr (List.prefix_append _ _)
  have hdrop : (("GMP:$".toList) ++ (d ++ (w ++ '(' :: (g ++ ')' :: q)))).drop 5
      = d ++ (w ++ '(' :: (g ++ ')' :: q)) := by
    simpa using List.drop_left ("GMP:$".toList) (d ++ (w ++ '(' :: (g ++ ')' :: q)))
  have hwh : ∀ c ∈ (w ++ '(' :: (g ++ ')' :: q)).head?, Char.isDigit c = false := by
    cases w with
    | nil => intro c hc; simp at hc; subst hc; decide
    | cons c0 w' =>
      intro c hc
      simp at hc
      subst hc
      exact isPyWs_not_digit (hw c0 (by simp))
  have h1 : (d ++ (w ++ '(' :: (g ++ ')' :: q))).takeWhile Char.isDigit = d :=
    takeWhile_append_eq hdall hwh
  have h2 : (d ++ (w ++ '(' :: (g ++ ')' :: q))).dropWhile Char.isDigit
      = w ++ '(' :: (g ++ ')' :: q) :=
    dropWhile_append_eq hdall hwh
  have h3 : (w ++ '(' :: (g ++ ')' :: q)).dropWhile isPyWs = '(' :: (g ++ ')' :: q) :=
    dropWhile_append_eq hw (by intro c hc; simp at hc; subst hc; decide)
  have h4 : (g ++ ')' :: q).takeWhile (fun c => !(c = ')')) = g :=
    takeWhile_append_eq hgall (by intro c hc; simp at hc; subst hc; decide)
  have h5 : (g ++ ')' :: q).dropWhile (fun c => !(c = ')')) = ')' :: q :=
    dropWhile_append_eq hgall (by intro c hc; simp at hc; subst hc; decide)
  unfold tryGmp
  rw [hpre]
  simp only [if_true, hdrop, h1, h2, h3, h4, h5, List.isEmpty_eq_true]
  rw [if_neg hd, if_neg hg]

theorem tryGmp_not_in_prefix {p t rest : List Char} (hp : ¬ ("GMP".toList <:+: p))
    (ht : t <:+ p) (ht0 : t ≠ []) (hrest : rest.head? = some 'G') :
    tryGmp (t ++ rest) = none := by
  have hnopre : ¬ (("GMP:$".toList) <+: t ++ rest) := by
    intro hpre
    rcases t with _ | ⟨a, _ | ⟨b, _ | ⟨c, _ | ⟨d, _ | ⟨e, t'⟩⟩⟩⟩⟩
    · exact ht0 rfl
    · obtain ⟨u, hu⟩ := hpre
      have hu' : ('G' : Char) :: 'M' :: 'P' :: ':' :: '$' :: u = a :: rest := hu
      simp only [List.cons.injEq] at hu'
      rw [← hu'.2] at hrest
      simp at hrest
    · obtain ⟨u, hu⟩ := hpre
      have hu' : ('G' : Char) :: 'M' :: 'P' :: ':' :: '$' :: u = a :: b :: rest := hu
      simp only [List.cons.injEq] at hu'
      rw [← hu'.2.2] at hrest
      simp at hrest
    · obtain ⟨u, hu⟩ := hpre
      have hu' : ('G' : Char) :: 'M' :: 'P' :: ':' :: '$' :: u = a :: b :: c :: rest := hu
      simp only [List.cons.injEq] at hu'
      rw [← hu'.2.2.2] at hrest
      simp at hrest
    · obtain ⟨u, hu⟩ := hpre
      have hu' : ('G' : Char) :: 'M' :: 'P' :: ':' :: '$' :: u = a :: b :: c :: d :: rest := hu
      simp only [List.cons.injEq] at hu'
      rw [← hu'.2.2.2.2] at hrest
      simp at hrest
    · obtain ⟨u, hu⟩ := hpre
      have hu' : ('G' : Char) :: 'M' :: 'P' :: ':' :: '$' :: u
          = a :: b :: c :: d :: e :: (t' ++ rest) := hu
      simp only [List.cons.injEq] at hu'
      apply hp
      have hsub : ("GMP".toList) <+: a :: b :: c :: d :: e :: t' := by
        rw [← hu'.1, ← hu'.2.1, ← hu'.2.2.1]
        exact ⟨d :: e :: t', rfl⟩
      exact hsub.isInfix.trans ht.isInfix
  have hfalse : ("GMP:$".toList).isPrefixOf (t ++ rest) = false := by
    rw [← Bool.not_eq_true]
    exact fun hx => hnopre (List.isPrefixOf_iff_prefix.mp hx)
  unfold tryGmp
  rw [hfalse]
  simp

theorem searchGmp_found {p d w g q : List Char} (hd : d ≠ [])
    (hdall : ∀ c ∈ d, Char.isDigit c = true) (hw : ∀ c ∈ w, isPyWs c = true)
    (hg : g ≠ []) (hgall : ∀ c ∈ g, (!(c = ')')) = true)
    (hp : ¬ ("GMP".toList <:+: p)) :
    searchM tryGmp (p ++ ("GMP:$".toList ++ (d ++ (w ++ '(' :: (g ++ ')' :: q)))))
      = some (d, g, q) :=
  @searchM_append (List Char × List Char × List Char) tryGmp p
    ("GMP:$".toList ++ (d ++ (w ++ '(' :: (g ++ ')' :: q)))) (d, g, q)
    (fun t ht ht0 => tryGmp_not_in_prefix hp ht ht0 (by rfl))
    (tryGmp_core hd hdall hw hg hgall)

theorem searchGmp_some {s : List Char} {v g r : List Char}
    (hs : searchM tryGmp s = some (v, g, r)) :
    v ≠ [] ∧ (∀ c ∈ v, Char.isDigit c = true) ∧ g ≠ [] ∧ (∀ c ∈ g, (!(c = ')')) = true) ∧
      ∃ p w q, (∀ c ∈ w, isPyWs c = true) ∧
        s = p ++ ("GMP:$".toList ++ (v ++ (w ++ '(' :: (g ++ ')' :: q)))) := by
  obtain ⟨t, hts, hft⟩ := searchM_some_suffix hs
  unfold tryGmp at hft
  split at hft
  next hpre =>
    split at hft
    · exact absurd hft (by simp)
    next hne1 =>
      split at hft
      next r3 heq =>
        split at hft
        · exact absurd hft (by simp)
        next hne2 =>
          split at hft
          next r5 heq2 =>
            simp only [Option.some.injEq, Prod.mk.injEq] at hft
            obtain ⟨hv, hg, hr⟩ := hft
            obtain ⟨p, hp2⟩ := hts
            obtain ⟨u, hu⟩ := List.isPrefixOf_iff_prefix.mp hpre
            have hu2 : t.drop 5 = u := by
              rw [← hu]
              simpa using List.drop_left ("GMP:$".toList) u
            have hsp1 : u.takeWhile Char.isDigit ++ u.dropWhile Char.isDigit = u :=
              List.takeWhile_append_dropWhile _ _
            have hsp2 : (u.dropWhile Char.isDigit).takeWhile isPyWs ++
                (u.dropWhile Char.isDigit).dropWhile isPyWs = u.dropWhile Char.isDigit :=
              List.takeWhile_append_dropWhile _ _
            have hsp3 : r3.takeWhile (fun c => !(c = ')')) ++
                r3.dropWhile (fun c => !(c = ')')) = r3 :=
              List.takeWhile_append_dropWhile _ _
            rw [hu2] at heq hne1 hv
            refine ⟨?_, ?_, ?_, ?_, p, (u.dropWhile Char.isDigit).takeWhile isPyWs, r5,
              ?_, ?_⟩
            · rw [← hv]
              simpa [List.isEmpty_eq_true] using hne1
            · rw [← hv]
              exact fun c hc => List.mem_takeWhile_imp hc
            · rw [← hg]
              simpa [List.isEmpty_eq_true] using hne2
            · rw [← hg]
              exact fun c hc => @List.mem_takeWhile_imp _ (fun c => !(c = ')')) r3 c hc
            · exact fun c hc => List.mem_takeWhile_imp hc
            · rw [← hp2, ← hu, ← hv, ← hg]
              have hr3 : r3 = r3.takeWhile (fun c => !(c = ')')) ++ ')' :: r5 := by
                conv_lhs => rw [← hsp3, heq2]
              conv_lhs => rw [← hsp1, ← hsp2, heq, hr3]
          · exact absurd hft (by simp)
      · exact absurd hft (by simp)
  · exact absurd hft (by simp)

/-! ### Facts about `splitHead`, `pyReplace`, `pyStrip`, `pySubTrailing` -/

theorem prefix_splitHead (pat l : List Char) : splitHead pat l <+: l := by
  induction l with
  | nil => simp [splitHead]
  | cons c t ih =>
    unfold splitHead
    split
    · exact List.nil_prefix
    · exact (List.cons_prefix_cons).mpr ⟨rfl, ih⟩

theorem no_infix_splitHead {pat : List Char} (hpat : pat ≠ []) (l : List Char) :
    ¬ (pat <:+: splitHead pat l) := by
  induction l with
  | nil =>
    intro h
    simp only [splitHead] at h
    exact hpat (List.eq_nil_of_infix_nil h)
  | cons c t ih =>
    intro h
    unfold splitHead at h
    split at h
    · exact hpat (List.eq_nil_of_infix_nil h)
    next hnp =>
      rcases List.infix_cons_iff.mp h with hpre | hinf
      · rcases pat with _ | ⟨p0, pat'⟩
        · exact hpat rfl
        · obtain ⟨hp0, hrest⟩ := List.cons_prefix_cons.mp hpre
          apply hnp
          apply List.isPrefixOf_iff_prefix.mpr
          exact List.cons_prefix_cons.mpr
            ⟨hp0, hrest.trans (prefix_splitHead (p0 :: pat') t)⟩
      · exact ih hinf

theorem splitHead_eq_self {pat l : List Char} (h : ¬ (pat <:+: l)) :
    splitHead pat l = l := by
  induction l with
  | nil => simp [splitHead]
  | cons c t ih =>
    unfold splitHead
    rw [if_neg, ih (fun hinf => h (hinf.trans (List.infix_cons (List.infix_refl t))))]
    intro hpre
    exact h ((List.isPrefixOf_iff_prefix.mp hpre).isInfix)

theorem pyReplaceF_eq_self {pat rep : List Char} :
    ∀ (f : Nat) (l : List Char), ¬ (pat <:+: l) → pyReplaceF pat rep f l = l := by
  intro f
  induction f with
  | zero => intro l _; rfl
  | succ f ih =>
    intro l h
    cases l with
    | nil => rfl
    | cons c t =>
      unfold pyReplaceF
      rw [if_neg, ih t (fun hinf => h (hinf.trans (List.infix_cons (List.infix_refl t))))]
      intro ⟨_, hpre⟩
      exact h ((List.isPrefixOf_iff_prefix.mp hpre).isInfix)

theorem pyReplace_eq_self {pat rep l : List Char} (h : ¬ (pat <:+: l)) :
    pyReplace pat rep l = l :=
  pyReplaceF_eq_self l.length l h

theorem dropWhile_idem {p : Char → Bool} {l : List Char} :
    (l.dropWhile p).dropWhile p = l.dropWhile p := by
  induction l with
  | nil => simp
  | cons c t ih =>
    by_cases hp : p c
    · simp [List.dropWhile_cons, hp, ih]
    · simp [List.dropWhile_cons, hp]

theorem dropWhile_head_false {p : Char → Bool} {m : List Char}
    (h : m.dropWhile p = m) : ∀ c ∈ m.head?, p c = false := by
  cases m with
  | nil => simp
  | cons c t =>
    intro c0 hc0
    have hcc : c = c0 := by simpa using hc0
    subst hcc
    by_cases hp : p c
    · rw [List.dropWhile_cons, if_pos hp] at h
      have hlen : (t.dropWhile p).length ≤ t.length :=
        (List.dropWhile_suffix p).length_le
      rw [h] at hlen
      simp at hlen
    · simpa using hp

theorem dropWhile_eq_self_of_prefix {p : Char → Bool} {y m : List Char}
    (hm : m.dropWhile p = m) (hy : y <+: m) : y.dropWhile p = y := by
  cases y with
  | nil => simp
  | cons c t =>
    cases m with
    | nil => exact absurd hy (by simp)
    | cons c0 m' =>
      obtain ⟨hc, _⟩ := List.cons_prefix_cons.mp hy
      subst hc
      have := dropWhile_head_false hm c rfl
      simp [List.dropWhile_cons, this]

theorem prefix_pyRstrip (ws : Char → Bool) (l : List Char) : pyRstrip ws l <+: l := by
  have h1 : l.reverse.dropWhile ws <:+ l.reverse := List.dropWhile_suffix ws
  have h2 := List.reverse_prefix.mpr h1
  simpa [pyRstrip] using h2

theorem pyRstrip_idem {ws : Char → Bool} {l : List Char} :
    pyRstrip ws (pyRstrip ws l) = pyRstrip ws l := by
  unfold pyRstrip
  rw [List.reverse_reverse, dropWhile_idem]

theorem infix_pyStrip (l : List Char) : pyStrip l <:+: l := by
  have h1 : pyStrip l <+: l.dropWhile isPyWs := prefix_pyRstrip _ _
  exact h1.isInfix.trans (List.dropWhile_suffix isPyWs).isInfix

theorem pyStripWith_idem {ws : Char → Bool} {l : List Char} :
    pyStripWith ws (pyStripWith ws l) = pyStripWith ws l := by
  unfold pyStripWith
  have hdw : (pyRstrip ws (l.dropWhile ws)).dropWhile ws = pyRstrip ws (l.dropWhile ws) := by
    refine dropWhile_eq_self_of_prefix ?_ (prefix_pyRstrip ws (l.dropWhile ws))
    exact dropWhile_idem
  rw [hdw, pyRstrip_idem]

theorem pyStrip_idem {l : List Char} : pyStrip (pyStrip l) = pyStrip l :=
  pyStripWith_idem

theorem pyRstrip_pyStrip {l : List Char} : pyRstrip isPyWs (pyStrip l) = pyStrip l := by
  unfold pyStrip pyStripWith
  rw [pyRstrip_idem]

theorem prefix_pySubTrailing (tok l : List Char) : pySubTrailing tok l <+: l := by
  unfold pySubTrailing
  split
  · exact ((prefix_pyRstrip _ _).trans (List.take_prefix _ _)).trans (prefix_pyRstrip _ _)
  · exact List.prefix_refl l

theorem pySubTrailing_eq_self {tok l : List Char}
    (h : tok.isSuffixOf (pyRstrip isPyWs l) = false) : pySubTrailing tok l = l := by
  unfold pySubTrailing
  rw [h]
  simp

/-! ### The two name extractors -/

theorem subName_no_gmp (s : List Char) : ¬ (("GMP".toList) <:+: subName s) := by
  intro h
  apply @no_infix_splitHead ("GMP".toList) (by simp) s
  refine h.trans ?_
  unfold subName
  refine (infix_pyStrip _).trans ?_
  refine ((prefix_pySubTrailing _ _).isInfix).trans ?_
  refine ((prefix_pySubTrailing _ _).isInfix).trans ?_
  exact infix_pyStrip _

theorem subName_eq_pyStrip (s : List Char) :
    subName s = pyStrip (pySubTrailing ("IPO".toList)
      (pySubTrailing ("SME".toList) (pyStrip (splitHead ("GMP".toList) s)))) := rfl

theorem subName_idem {s : List Char}
    (hS : ("SME".toList).isSuffixOf (subName s) = false)
    (hI : ("IPO".toList).isSuffixOf (subName s) = false) :
    subName (subName s) = subName s := by
  have hstrip : pyStrip (subName s) = subName s := by
    rw [subName_eq_pyStrip s]
    exact pyStrip_idem
  have hr : pyRstrip isPyWs (subName s) = subName s := by
    conv_lhs => rw [subName_eq_pyStrip s]
    rw [pyRstrip_pyStrip, ← subName_eq_pyStrip s]
  conv_lhs => rw [subName_eq_pyStrip (subName s)]
  rw [splitHead_eq_self (subName_no_gmp s), hstrip,
    @pySubTrailing_eq_self ("SME".toList) (subName s) (by rw [hr]; exact hS),
    @pySubTrailing_eq_self ("IPO".toList) (subName s) (by rw [hr]; exact hI), hstrip]

theorem gmpName_eq_pyStrip (s : List Char) :
    gmpName s = pyStrip (pyReplace ("NSE SME".toList) []
      (pyReplace ("BSE SME".toList) [] (splitHead ("IPO".toList) s))) := rfl

theorem gmpName_idem {s : List Char}
    (hI : ¬ (("IPO".toList) <:+: gmpName s))
    (hB : ¬ (("BSE SME".toList) <:+: gmpName s))
    (hN : ¬ (("NSE SME".toList) <:+: gmpName s)) :
    gmpName (gmpName s) = gmpName s := by
  have hstrip : pyStrip (gmpName s) = gmpName s := by
    rw [gmpName_eq_pyStrip s]
    exact pyStrip_idem
  conv_lhs => rw [gmpName_eq_pyStrip (gmpName s)]
  rw [splitHead_eq_self hI, pyReplace_eq_self hB, pyReplace_eq_self hN, hstrip]

/-! ### `format_price` facts -/

theorem dropWhile_append_last {p : Char → Bool} {c : Char} (hc : p c = false)
    (l : List Char) : (l ++ [c]).dropWhile p = l.dropWhile p ++ [c] := by
  induction l with
  | nil => simp [List.dropWhile_cons, hc]
  | cons a t ih =>
    by_cases hp : p a
    · simp [List.dropWhile_cons, hp, ih]
    · simp [List.dropWhile_cons, hp]

theorem pyStripWith_rupee (l : List Char) :
    pyStripWith isAsciiWs ('₹' :: l) = '₹' :: pyRstrip isAsciiWs l := by
  unfold pyStripWith pyRstrip
  rw [List.dropWhile_cons, if_neg (by decide)]
  rw [List.reverse_cons, dropWhile_append_last (by decide), List.reverse_append]
  simp

theorem pyFloatParse_rupee (l : List Char) : pyFloatParse ('₹' :: l) = none := by
  unfold pyFloatParse
  rw [pyStripWith_rupee]
  rfl

/-! ### Bucketing facts -/

theorem mem_bucketUpcoming {rs : List IpoDetails} {r : IpoDetails} :
    r ∈ bucketUpcoming rs ↔ r ∈ rs ∧ ("Upcoming".toList) <:+: r.status := by
  simp [bucketUpcoming, List.mem_filter]

theorem mem_bucketOpen {rs : List IpoDetails} {r : IpoDetails} :
    r ∈ bucketOpen rs ↔ r ∈ rs ∧ ("Open".toList) <:+: r.status := by
  simp [bucketOpen, List.mem_filter]

theorem mem_bucketClosingToday {rs : List IpoDetails} {r : IpoDetails} :
    r ∈ bucketClosingToday rs ↔ r ∈ rs ∧ ("Closing Today".toList) <:+: r.status := by
  simp [bucketClosingToday, List.mem_filter]

theorem bucket_length_bound (rs : List IpoDetails)
    (h : ∀ r ∈ rs, statusKeywordCount r.status ≤ 1) :
    (bucketUpcoming rs).length + (bucketOpen rs).length + (bucketClosingToday rs).length
      ≤ rs.length := by
  induction rs with
  | nil => simp [bucketUpcoming, bucketOpen, bucketClosingToday]
  | cons r t ih =>
    have hr := h r (by simp)
    have iht := ih (fun x hx => h x (by simp [hx]))
    simp only [statusKeywordCount] at hr
    simp only [bucketUpcoming, bucketOpen, bucketClosingToday, List.filter_cons,
      decide_eq_true_eq] at iht ⊢
    split_ifs at hr ⊢ <;> (try simp only [List.length_cons]) <;> omega

/-! ### The claims -/

/-- C1: the two-numeric-substring extraction of `main` (lines 360-363),
applied to a status string with exactly one numeric substring (e.g.
`"43.73"`), raises the insufficient-match `IndexError` (modelled as
`none`); applied to a status string whose first two numeric substrings are
`"115"` and `"43.73"` (e.g. `"115 43.73"`), it returns `"115(43.73%)"`. -/
theorem claim_c1 :
    (∀ s x, findNums s = [x] → twoNumFormat s = none) ∧
    twoNumFormat ("43.73".toList) = none ∧
    (∀ s r, findNums s = ("115".toList) :: ("43.73".toList) :: r →
      twoNumFormat s = some ("115(43.73%)".toList)) ∧
    twoNumFormat ("115 43.73".toList) = some ("115(43.73%)".toList) := by
  refine ⟨?_, by decide, ?_, by decide⟩
  · intro s x h
    unfold twoNumFormat
    rw [h]
  · intro s r h
    unfold twoNumFormat
    rw [h]
    rfl

/-- Witness for C1 at the status strings `"43.73"` and `"115 43.73"`. -/
theorem claim_c1_witness :
    twoNumFormat ("43.73".toList) = none ∧
    twoNumFormat ("115 43.73".toList) = some ("115(43.73%)".toList) :=
  ⟨claim_c1.1 ("43.73".toList) ("43.73".toList) (by decide),
   claim_c1.2.2.1 ("115 43.73".toList) [] (by decide)⟩

/-- Counterexample to C2 as stated: the regex at `dash.py` line 177 demands
a literal dollar sign (`GMP:\$`), so on the claimed input
`"ABC IPO GMP:₹35(7.2%)"` (rupee currency) the parser returns the `"N/A"`
sentinel for both halves, not `"35"` and `"7.2%"`. -/
theorem claim_c2_counterexample :
    (parse_subscription_ipo_name ("ABC IPO GMP:₹35(7.2%)".toList)
      ("O".toList)).gmp_value = "N/A".toList ∧
    (parse_subscription_ipo_name ("ABC IPO GMP:₹35(7.2%)".toList)
      ("O".toList)).gmp_value ≠ "35".toList ∧
    (parse_subscription_ipo_name ("ABC IPO GMP:₹35(7.2%)".toList)
      ("O".toList)).gmp_percentage = "N/A".toList := by decide

/-- C2 amended: the currency in the GMP annotation is the literal dollar
sign.  For every IPO-cell text containing `GMP:$<digits>(<text>)` (first
such occurrence, i.e. no `GMP` in the prefix before it), the parser
returns the digits as `gmp_value` and the parenthesised text as
`gmp_percentage`; on `"ABC IPO GMP:$35(7.2%)"` it returns `"35"` and
`"7.2%"`; on text with no such annotation it returns `"N/A"` for both. -/
theorem claim_c2 :
    (∀ p d w g q st, d ≠ [] → (∀ c ∈ d, Char.isDigit c = true) →
      (∀ c ∈ w, isPyWs c = true) → g ≠ [] → (∀ c ∈ g, (!(c = ')')) = true) →
      ¬ ("GMP".toList <:+: p) →
      (parse_subscription_ipo_name
        (p ++ ("GMP:$".toList ++ (d ++ (w ++ '(' :: (g ++ ')' :: q))))) st).gmp_value = d ∧
      (parse_subscription_ipo_name
        (p ++ ("GMP:$".toList ++ (d ++ (w ++ '(' :: (g ++ ')' :: q))))) st).gmp_percentage
        = g) ∧
    (parse_subscription_ipo_name ("ABC IPO GMP:$35(7.2%)".toList)
      ("O".toList)).gmp_value = "35".toList ∧
    (parse_subscription_ipo_name ("ABC IPO GMP:$35(7.2%)".toList)
      ("O".toList)).gmp_percentage = "7.2%".toList ∧
    (∀ s st,
      (¬ ∃ p d w g q, d ≠ [] ∧ (∀ c ∈ d, Char.isDigit c = true) ∧
        (∀ c ∈ w, isPyWs c = true) ∧ g ≠ [] ∧ (∀ c ∈ g, (!(c = ')')) = true) ∧
        s = p ++ ("GMP:$".toList ++ (d ++ (w ++ '(' :: (g ++ ')' :: q))))) →
      (parse_subscription_ipo_name s st).gmp_value = "N/A".toList ∧
      (parse_subscription_ipo_name s st).gmp_percentage = "N/A".toList) := by
  refine ⟨?_, by decide, by decide, ?_⟩
  · intro p d w g q st hd hdall hw hg hgall hp
    have hs := @searchGmp_found p d w g q hd hdall hw hg hgall hp
    constructor <;> simp only [parse_subscription_ipo_name, hs]
  · intro s st hno
    cases hs : searchM tryGmp s with
    | none => constructor <;> simp only [parse_subscription_ipo_name, hs]
    | some vgr =>
      exfalso
      apply hno
      obtain ⟨v, g, r⟩ := vgr
      obtain ⟨hv, hvdig, hg, hgall, p, w, q, hw, hdecomp⟩ := searchGmp_some hs
      exact ⟨p, v, w, g, q, hv, hvdig, hw, hg, hgall, hdecomp⟩

/-- Witness for C2 amended, at `"ABC IPO GMP:$35(7.2%)"` (pattern present)
and `"hello"` (no annotation). -/
theorem claim_c2_witness :
    (parse_subscription_ipo_name
      ("ABC IPO ".toList ++ ("GMP:$".toList ++ ("35".toList ++
        ([] ++ '(' :: ("7.2%".toList ++ ')' :: []))))) ("O".toList)).gmp_value
      = "35".toList ∧
    (parse_subscription_ipo_name ("hello".toList) []).gmp_value = "N/A".toList :=
  ⟨(claim_c2.1 ("ABC IPO ".toList) ("35".toList) [] ("7.2%".toList) [] ("O".toList)
      (by decide) (by decide) (by decide) (by decide) (by decide) (by decide)).1,
   (claim_c2.2.2.2 ("hello".toList) [] (by
      rintro ⟨p, d, w, g, q, -, -, -, -, -, hs⟩
      have hdol : ('$' : Char) ∈ ("hello".toList) := by
        rw [hs]
        refine List.mem_append_right _ (List.mem_append_left _ ?_)
        decide
      exact absurd hdol (by decide))).1⟩

/-- Counterexample to C3 as stated: the code keeps the raw stripped status
text (no mapping to a status value), and the section filters test substring
containment independently, so a record whose status label contains both
`"Open"` and `"Closing Today"` is selected into the Open section as well —
it does not resolve to Closing-Today over Open. -/
theorem claim_c3_counterexample :
    (parse_ipo_details ("Demo".toList) ("Open Closing Today".toList)).status
      ≠ "Closing Today".toList ∧
    parse_ipo_details ("Demo".toList) ("Open Closing Today".toList) ∈
      bucketOpen [parse_ipo_details ("Demo".toList) ("Open Closing Today".toList)] ∧
    parse_ipo_details ("Demo".toList) ("Open Closing Today".toList) ∈
      bucketClosingToday
        [parse_ipo_details ("Demo".toList) ("Open Closing Today".toList)] := by decide

/-- C3 amended: the parser keeps the stripped status text verbatim; a record
is shown in the Upcoming / Open / Closing-Today section exactly when its
status contains that section's substring (the three tests are independent,
so a label containing several keywords appears in several sections), and a
label containing none of the three substrings appears in no section (there
is no distinguished Unknown value). -/
theorem claim_c3 :
    (∀ it st, (parse_ipo_details it st).status = pyStrip st) ∧
    (∀ (rs : List IpoDetails) r,
      (r ∈ bucketUpcoming rs ↔ r ∈ rs ∧ ("Upcoming".toList) <:+: r.status) ∧
      (r ∈ bucketOpen rs ↔ r ∈ rs ∧ ("Open".toList) <:+: r.status) ∧
      (r ∈ bucketClosingToday rs ↔ r ∈ rs ∧ ("Closing Today".toList) <:+: r.status)) ∧
    (∀ (rs : List IpoDetails) r, r ∈ rs →
      ¬ (("Upcoming".toList) <:+: r.status) → ¬ (("Open".toList) <:+: r.status) →
      ¬ (("Closing Today".toList) <:+: r.status) →
      r ∉ bucketUpcoming rs ∧ r ∉ bucketOpen rs ∧ r ∉ bucketClosingToday rs) :=
  ⟨fun _ _ => rfl,
   fun _ _ => ⟨mem_bucketUpcoming, mem_bucketOpen, mem_bucketClosingToday⟩,
   fun _ r _ h1 h2 h3 =>
    ⟨fun hb => h1 (mem_bucketUpcoming.mp hb).2,
     fun hb => h2 (mem_bucketOpen.mp hb).2,
     fun hb => h3 (mem_bucketClosingToday.mp hb).2⟩⟩

/-- Witness for C3 amended at a record with status `"Closed"`. -/
theorem claim_c3_witness :
    parse_ipo_details ("A".toList) ("Closed".toList) ∉
      bucketOpen [parse_ipo_details ("A".toList) ("Closed".toList)] :=
  (claim_c3.2.2 [parse_ipo_details ("A".toList) ("Closed".toList)]
    (parse_ipo_details ("A".toList) ("Closed".toList))
    (by decide) (by decide) (by decide) (by decide)).2.1

/-- Counterexample to C4 as stated: with a single input record whose status
is `"Open Closing Today"`, the record is selected into two sections, so the
total number of bucketed records (2) exceeds the number of input records
(1) and the record appears in more than one bucket. -/
theorem claim_c4_counterexample :
    ¬ ((bucketUpcoming [parse_ipo_details ("Demo".toList) ("Open Closing Today".toList)]).length +
        (bucketOpen [parse_ipo_details ("Demo".toList) ("Open Closing Today".toList)]).length +
        (bucketClosingToday
          [parse_ipo_details ("Demo".toList) ("Open Closing Today".toList)]).length ≤
      [parse_ipo_details ("Demo".toList) ("Open Closing Today".toList)].length) := by decide

/-- C4 amended: each bucket is an order-preserving sublist of the input
(stable filtering), and when every record's status contains at most one of
the three keywords the buckets are pairwise disjoint and the total number
of bucketed records is at most the number of input records; a status
containing several keywords is counted in several buckets. -/
theorem claim_c4 :
    (∀ rs : List IpoDetails, (bucketUpcoming rs).Sublist rs ∧
      (bucketOpen rs).Sublist rs ∧ (bucketClosingToday rs).Sublist rs) ∧
    (∀ rs : List IpoDetails, (∀ r ∈ rs, statusKeywordCount r.status ≤ 1) →
      (bucketUpcoming rs).length + (bucketOpen rs).length + (bucketClosingToday rs).length
        ≤ rs.length) ∧
    (∀ (rs : List IpoDetails) r, r ∈ rs → statusKeywordCount r.status ≤ 1 →
      ¬ (r ∈ bucketUpcoming rs ∧ r ∈ bucketOpen rs) ∧
      ¬ (r ∈ bucketUpcoming rs ∧ r ∈ bucketClosingToday rs) ∧
      ¬ (r ∈ bucketOpen rs ∧ r ∈ bucketClosingToday rs)) := by
  refine ⟨?_, fun rs h => bucket_length_bound rs h, ?_⟩
  · exact fun rs => ⟨List.filter_sublist rs, List.filter_sublist rs, List.filter_sublist rs⟩
  · intro rs r _ hcnt
    simp only [statusKeywordCount] at hcnt
    refine ⟨?_, ?_, ?_⟩ <;> rintro ⟨ha, hb⟩
    · rw [if_pos (mem_bucketUpcoming.mp ha).2, if_pos (mem_bucketOpen.mp hb).2] at hcnt
      split_ifs at hcnt <;> omega
    · rw [if_pos (mem_bucketUpcoming.mp ha).2,
        if_pos (mem_bucketClosingToday.mp hb).2] at hcnt
      split_ifs at hcnt <;> omega
    · rw [if_pos (mem_bucketOpen.mp ha).2, if_pos (mem_bucketClosingToday.mp hb).2] at hcnt
      split_ifs at hcnt <;> omega

/-- Witness for C4 amended at a two-record input with single-keyword
statuses `"Open"` and `"Upcoming"`. -/
theorem claim_c4_witness :
    (bucketUpcoming [parse_ipo_details ("A".toList) ("Open".toList),
        parse_ipo_details ("B".toList) ("Upcoming".toList)]).length +
      (bucketOpen [parse_ipo_details ("A".toList) ("Open".toList),
        parse_ipo_details ("B".toList) ("Upcoming".toList)]).length +
      (bucketClosingToday [parse_ipo_details ("A".toList) ("Open".toList),
        parse_ipo_details ("B".toList) ("Upcoming".toList)]).length ≤
      ([parse_ipo_details ("A".toList) ("Open".toList),
        parse_ipo_details ("B".toList) ("Upcoming".toList)] : List IpoDetails).length ∧
    ¬ (parse_ipo_details ("A".toList) ("Open".toList) ∈
        bucketOpen [parse_ipo_details ("A".toList) ("Open".toList),
          parse_ipo_details ("B".toList) ("Upcoming".toList)] ∧
       parse_ipo_details ("A".toList) ("Open".toList) ∈
        bucketClosingToday [parse_ipo_details ("A".toList) ("Open".toList),
          parse_ipo_details ("B".toList) ("Upcoming".toList)]) :=
  ⟨claim_c4.2.1 _ (by decide), (claim_c4.2.2 _ _ (by decide) (by decide)).2.2⟩

/-- Counterexample to C5 as stated: the subscription-table name extractor is
not idempotent — on `"Foo SME IPO"` one application gives `"Foo SME"`
(removing the trailing `IPO` token exposes a trailing `SME` token), and a
second application gives `"Foo"`. -/
theorem claim_c5_counterexample :
    subName (subName ("Foo SME IPO".toList)) ≠ subName ("Foo SME IPO".toList) ∧
    subName ("Foo SME IPO".toList) = "Foo SME".toList ∧
    subName (subName ("Foo SME IPO".toList)) = "Foo".toList := by decide

/-- C5 amended: each name extractor is idempotent exactly when its first
pass leaves no removable token: the GMP-table variant whenever its output
contains none of `"IPO"`, `"BSE SME"`, `"NSE SME"` as substrings, and the
subscription-table variant whenever its output does not end with an `"SME"`
or `"IPO"` token; in general a second application can strip further (see
the counterexample).  The extractors are the `name` fields of the two
record parsers. -/
theorem claim_c5 :
    (∀ s, ¬ (("IPO".toList) <:+: gmpName s) → ¬ (("BSE SME".toList) <:+: gmpName s) →
      ¬ (("NSE SME".toList) <:+: gmpName s) → gmpName (gmpName s) = gmpName s) ∧
    (∀ s, ("SME".toList).isSuffixOf (subName s) = false →
      ("IPO".toList).isSuffixOf (subName s) = false →
      subName (subName s) = subName s) ∧
    (∀ s st, (parse_ipo_details s st).name = gmpName s) ∧
    (∀ s st, (parse_subscription_ipo_name s st).name = subName s) := by
  refine ⟨fun _ h1 h2 h3 => gmpName_idem h1 h2 h3,
    fun _ h1 h2 => subName_idem h1 h2, fun _ _ => rfl, fun s st => ?_⟩
  simp [parse_subscription_ipo_name]

/-- Witness for C5 amended at `"Tata Tech IPO"` (GMP variant) and
`"Alpha GMP:$5(2%)"` (subscription variant). -/
theorem claim_c5_witness :
    gmpName (gmpName ("Tata Tech IPO".toList)) = gmpName ("Tata Tech IPO".toList) ∧
    subName (subName ("Alpha GMP:$5(2%)".toList)) = subName ("Alpha GMP:$5(2%)".toList) :=
  ⟨claim_c5.1 ("Tata Tech IPO".toList) (by decide) (by decide) (by decide),
   claim_c5.2.1 ("Alpha GMP:$5(2%)".toList) (by decide) (by decide)⟩

/-- C6: for every status-cell text containing a token `Sub:<number>x`
(first such token, i.e. no `Sub` in the prefix before it, with `<number>`
of the regex shape `\d+\.?\d*`), the parsed record's subscription field is
`<number>x` — e.g. `"Open | Sub:2.5x"` yields `"2.5x"` — and for every
text without such a token it is the sentinel `"N.A."` — e.g. `"Open"`. -/
theorem claim_c6 :
    (∀ it st, (parse_ipo_details it st).subscription = subTimes st) ∧
    (∀ p n q, numShape n = true → ¬ ("Sub".toList <:+: p) →
      subTimes (p ++ ("Sub:".toList ++ (n ++ 'x' :: q))) = n ++ ['x']) ∧
    subTimes ("Open | Sub:2.5x".toList) = "2.5x".toList ∧
    (∀ s, (¬ ∃ p n q, numShape n = true ∧ s = p ++ ("Sub:".toList ++ (n ++ 'x' :: q))) →
      subTimes s = "N.A.".toList) ∧
    subTimes ("Open".toList) = "N.A.".toList :=
  ⟨fun _ _ => rfl, fun _ _ _ hn hp => subTimes_found hn hp, by decide,
   fun _ h => subTimes_notfound h, by decide⟩

/-- Witness for C6 at `"Open | Sub:2.5x"` (token present) and `"Open"`
(token absent). -/
theorem claim_c6_witness :
    subTimes ("Open | ".toList ++ ("Sub:".toList ++ ("2.5".toList ++ 'x' :: [])))
      = "2.5".toList ++ ['x'] ∧
    subTimes ("Open".toList) = "N.A.".toList := by
  refine ⟨claim_c6.2.1 ("Open | ".toList) ("2.5".toList) [] (by decide) (by decide),
    claim_c6.2.2.2.1 ("Open".toList) ?_⟩
  rintro ⟨p, n, q, hn, hs⟩
  have hne : n ≠ [] := by
    intro h0
    rw [h0] at hn
    simp [numShape] at hn
  have hnpos : 0 < n.length := List.length_pos.mpr hne
  have hlen := congrArg List.length hs
  have h4 : ("Sub:".toList).length = 4 := by decide
  have hO : ("Open".toList).length = 4 := by decide
  simp only [List.length_append, List.length_cons, h4, hO] at hlen
  omega

/-- C7: the code-shape status classifier (`status_mapping.get` on the
stripped status cell) maps `"CT"` to `"Closing Today"`, `"O"` to `"Open"`,
`"C"` to `"Closed"`, and passes every unrecognised code through unchanged
(e.g. `"ZZ"` stays `"ZZ"`) rather than failing. -/
theorem claim_c7 :
    (∀ ipo st, (parse_subscription_ipo_name ipo st).status
      = status_mapping_get (pyStrip st)) ∧
    status_mapping_get ("CT".toList) = "Closing Today".toList ∧
    status_mapping_get ("O".toList) = "Open".toList ∧
    status_mapping_get ("C".toList) = "Closed".toList ∧
    (∀ c, c ≠ "O".toList → c ≠ "C".toList → c ≠ "CT".toList →
      status_mapping_get c = c) := by
  refine ⟨?_, by decide, by decide, by decide, ?_⟩
  · intro ipo st
    simp [parse_subscription_ipo_name]
  · intro c h1 h2 h3
    unfold status_mapping_get
    rw [if_neg h1, if_neg h2, if_neg h3]

/-- Witness for C7 at the unrecognised code `"ZZ"`. -/
theorem claim_c7_witness : status_mapping_get ("ZZ".toList) = "ZZ".toList :=
  claim_c7.2.2.2.2 ("ZZ".toList) (by decide) (by decide) (by decide)

/-- Counterexample to C8 as stated: on `"ABC GMP:$35 IPO"` only the value
half of the pattern is present (no parenthesised percentage), yet the
parser does not return `"35"` with an `"N/A"` percentage — the single
regex fails as a whole and the value half is also the `"N/A"` sentinel. -/
theorem claim_c8_counterexample :
    (parse_subscription_ipo_name ("ABC GMP:$35 IPO".toList) ("O".toList)).gmp_value
      = "N/A".toList ∧
    (parse_subscription_ipo_name ("ABC GMP:$35 IPO".toList) ("O".toList)).gmp_value
      ≠ "35".toList := by decide

/-- C8 amended: the two halves are not independent — both come from one
match of the regex.  Whenever `gmp_value` is the `"N/A"` sentinel (no
match), `gmp_percentage` is `"N/A"` as well; when the pattern matches, the
value group is a nonempty digit string, never `"N/A"`.  The converse
direction can only be broken by a percentage group that literally reads
`N/A`, as on `"X GMP:$5(N/A)"`. -/
theorem claim_c8 :
    (∀ ipo st, (parse_subscription_ipo_name ipo st).gmp_value = "N/A".toList →
      (parse_subscription_ipo_name ipo st).gmp_percentage = "N/A".toList) ∧
    (parse_subscription_ipo_name ("X GMP:$5(N/A)".toList) ("O".toList)).gmp_value
      = "5".toList ∧
    (parse_subscription_ipo_name ("X GMP:$5(N/A)".toList) ("O".toList)).gmp_percentage
      = "N/A".toList := by
  refine ⟨?_, by decide, by decide⟩
  intro ipo st hv
  cases hs : searchM tryGmp ipo with
  | none => simp only [parse_subscription_ipo_name, hs]
  | some vgr =>
    obtain ⟨v, g, r⟩ := vgr
    exfalso
    simp only [parse_subscription_ipo_name, hs] at hv
    obtain ⟨hvne, hvdig, -⟩ := searchGmp_some hs
    have hN : Char.isDigit 'N' = true := by
      apply hvdig
      rw [hv]
      decide
    exact absurd hN (by decide)

/-- Witness for C8 amended at `"hello"` (no match, both halves `"N/A"`). -/
theorem claim_c8_witness :
    (parse_subscription_ipo_name ("hello".toList) []).gmp_percentage = "N/A".toList :=
  claim_c8.1 ("hello".toList) [] (by decide)

/-- Counterexample to C9 as stated: `format_price` does not strip thousands
separators — on `"1,000"` the remaining content `"1000"` parses as a
decimal number, yet the string is returned unchanged instead of as a
formatted numeric value, because `float("1,000")` raises. -/
theorem claim_c9_counterexample :
    format_price ("1,000".toList) = "1,000".toList ∧
    pyFloatParse ("1000".toList) ≠ none := by decide

/-- C9 amended: `format_price` never strips currency symbols or
separators: it returns the `₹`-prefixed `:,.2f` formatting exactly when
the whole input parses as a Python float, and otherwise returns the input
unchanged (it never raises — the embedding is a total function whose
result is always one of these two cases).  E.g. `"1234.5"` becomes
`"₹1,234.50"` while `"1,000"` is returned unchanged. -/
theorem claim_c9 :
    (∀ s v, pyFloatParse s = some v → format_price s = '₹' :: fmtPyFloat v) ∧
    (∀ s, pyFloatParse s = none → format_price s = s) ∧
    format_price ("1234.5".toList) = "₹1,234.50".toList ∧
    format_price ("1,000".toList) = "1,000".toList := by
  refine ⟨?_, ?_, by decide, by decide⟩
  · intro s v h
    simp [format_price, h]
  · intro s h
    simp [format_price, h]

/-- Witness for C9 amended at `"7"` (parses) and `"abc"` (does not). -/
theorem claim_c9_witness :
    format_price ("7".toList) = '₹' :: fmtPyFloat (PyFloat.num false 7 [] 0) ∧
    format_price ("abc".toList) = "abc".toList :=
  ⟨claim_c9.1 ("7".toList) (PyFloat.num false 7 [] 0) (by decide),
   claim_c9.2.1 ("abc".toList) (by decide)⟩

/-- C10: `format_price` is idempotent — its formatted output starts with
the `₹` sign, which `float()` rejects, so a second application returns the
output unchanged; unparseable inputs are returned unchanged anyway. -/
theorem claim_c10 : ∀ p, format_price (format_price p) = format_price p := by
  intro p
  cases h : pyFloatParse p with
  | none => simp [format_price, h]
  | some v => simp [format_price, h, pyFloatParse_rupee]

end IpoDash
